import Mathlib

/-!
Shallow embedding of the channel-selection core of `discord_exporter.py`
(the checkbox TUI, the display-list builder, the pagination arithmetic and
the line-oriented fallback parser), together with theorems settling the
frozen claims about it.

Conventions:
* Python lists become Lean `List`s; Python dict entries of the channel
  records become fields of the `Channel` structure.  The `category_name`
  dict key is always present in records built by the program (it is set to
  `None` or to a category's name at construction, and survives the JSON
  round trip), so it is embedded as an `Option String` field; a missing key
  never occurs.
* Python `int` is embedded as `Int` (arbitrary precision in both).
* Functions that can raise and be caught (`int(...)` under
  `except ValueError`) return `Option`.
-/

/-- One element of the `channels` list handed to the selection UI, as built
at catalog-load time (guild/channel names and ids, type, nullable category
name, estimated message count, creation timestamp). -/
structure Channel where
  guild_name : String
  guild_id : Nat
  channel_name : String
  channel_id : Nat
  channel_type : String
  category_name : Option String
  estimated_messages : Nat
  created_at : String
deriving DecidableEq

/-- The sentinel label substituted for a null category, `"未分類"`
("Uncategorized") in the source. -/
def uncategorized : String := "未分類"

/-- The grouping key of `_organize_channels_by_category`:
`category_name = channel.get('category_name', None)` followed by
`if category_name is None: category_name = "未分類"`. -/
def categoryKey (ch : Channel) : String :=
  ch.category_name.getD uncategorized

/-- Keys of a Python dict built by repeated insertion: first occurrences,
in insertion order (used to embed the `defaultdict` of
`_organize_channels_by_category`). -/
def dictKeys : List String → List String → List String
  | _, [] => []
  | seen, a :: as =>
    if a ∈ seen then dictKeys seen as else a :: dictKeys (a :: seen) as

/-- Python's `<=` on strings restricted to their character sequences:
lexicographic comparison of Unicode code points (Lean `Char.val`).  This is
the comparison `sorted` uses on the category names. -/
def charsLe : List Char → List Char → Bool
  | [], _ => true
  | _ :: _, [] => false
  | a :: as, b :: bs =>
    if a.val.toNat < b.val.toNat then true
    else if b.val.toNat < a.val.toNat then false
    else charsLe as bs

/-- Python string comparison, on a string's code points. -/
def strLe (a b : String) : Bool := charsLe a.data b.data

/-- `_organize_channels_by_category`: group the channels by `categoryKey`
(a `defaultdict(list)` filled in input order, so each bucket is the
subsequence of channels with that key), then emit the buckets with keys in
`sorted` order except that `"未分類"` is skipped there and appended last
when present. -/
def organize_channels_by_category (channels : List Channel) :
    List (String × List Channel) :=
  let keys := dictKeys [] (channels.map categoryKey)
  let sortedKeys := List.insertionSort (fun a b : String => strLe a b = true) keys
  (sortedKeys.filter (fun k => k ≠ uncategorized)).map
      (fun k => (k, channels.filter (fun ch => categoryKey ch == k)))
    ++ (if uncategorized ∈ keys then
        [(uncategorized, channels.filter (fun ch => categoryKey ch == uncategorized))]
      else [])

/-- One entry of the display list built by `_create_display_list`: either a
category header or a channel row.  The render-only `"text"` field of the
source dict is omitted; a channel row keeps the channel record and its
`original_index = channels.index(channel)` (first equal occurrence). -/
inductive DisplayItem where
  | categoryHeader (category_name : String)
  | channelEntry (channel : Channel) (original_index : Nat)
deriving DecidableEq

/-- The display list of `_create_display_list`: for each category of
`_organize_channels_by_category`, a header followed by the bucket's
channels, each carrying `channels.index(channel)`. -/
def create_display_list (channels : List Channel) : List DisplayItem :=
  (organize_channels_by_category channels).flatMap fun p =>
    DisplayItem.categoryHeader p.1 ::
      p.2.map (fun ch => DisplayItem.channelEntry ch (channels.indexOf ch))

/-- The `channel_map` of `_create_display_list`
(`display_index -> channel_index`): the source records, while appending,
each channel row's final position in `display_items` together with its
`original_index`; equivalently, the positions of the channel entries of
the finished display list paired with their stored original index. -/
def channel_map (channels : List Channel) : List (Nat × Nat) :=
  (create_display_list channels).enum.filterMap fun pi =>
    match pi.2 with
    | DisplayItem.channelEntry _ oi => some (pi.1, oi)
    | DisplayItem.categoryHeader _ => none

/-! ## Selection state and its toggle operations (`_checkbox_ui`) -/

/-- The mutable selection state of `_checkbox_ui`:
`checked = [False] * len(channels)` plus the derived `all_checked` flag. -/
structure SelState where
  checked : List Bool
  all_checked : Bool
deriving DecidableEq

/-- The state at session start: `checked = [False] * len(channels)`,
`all_checked = False`. -/
def initState (channels : List Channel) : SelState :=
  ⟨List.replicate channels.length false, false⟩

/-- `sum(checked)`: the number of true flags. -/
def countChecked (s : SelState) : Nat :=
  (s.checked.filter id).length

/-- The global toggle (`A` key, or SPACE on the `All` pseudo-entry):
`all_checked = not all_checked; checked = [all_checked] * len(channels)`. -/
def toggle_global (channels : List Channel) (s : SelState) : SelState :=
  ⟨List.replicate channels.length (!s.all_checked), !s.all_checked⟩

/-- SPACE on a channel row:
`checked[original_idx] = not checked[original_idx];
all_checked = all(checked)`. -/
def toggle_item (s : SelState) (i : Nat) : SelState :=
  let c := s.checked.set i (!(s.checked.getD i false))
  ⟨c, c.all id⟩

/-- The membership test of the category toggle (and of the header display):
`ch.get('category_name', '未分類') == category_name`.  The dict key is
always present, so `.get` returns the stored value (possibly `None`), and
`None == category_name` is `False` for the string `category_name`; hence a
null-category channel matches no header label, not even `"未分類"`. -/
def inCategoryToggle (ch : Channel) (label : String) : Bool :=
  ch.category_name == some label

/-- SPACE on a category header: collect
`category_channels = [ch for ch in channels if ch.get('category_name','未分類') == category_name]`,
`category_indices = [channels.index(ch) for ch in category_channels]`,
count the checked ones, set every collected index to
`selected_in_category < len(category_channels)`, then
`all_checked = all(checked)`.  (The `except (ValueError, IndexError)`
branch is unreachable: every collected channel is a member of `channels`
and its first index is within `checked`.) -/
def toggle_category (channels : List Channel) (s : SelState) (label : String) :
    SelState :=
  let catChannels := channels.filter (fun ch => inCategoryToggle ch label)
  let catIndices := catChannels.map (fun ch => channels.indexOf ch)
  let selectedIn := (catIndices.filter (fun i => s.checked.getD i false)).length
  let newState := decide (selectedIn < catChannels.length)
  let c := catIndices.foldl (fun acc i => acc.set i newState) s.checked
  ⟨c, c.all id⟩

/-- Original indices the UI can toggle individually: the values stored in
the channel rows of the display list (the cursor can reach every display
entry across the pages). -/
def toggleableIndices (channels : List Channel) : List Nat :=
  (channel_map channels).map Prod.snd

/-- Labels the UI can category-toggle: the header labels of the display
list. -/
def headerLabels (channels : List Channel) : List String :=
  (organize_channels_by_category channels).map Prod.fst

/-- Selection states reachable in a `_checkbox_ui` session over `channels`:
the initial state, closed under an item toggle at a display entry's stored
index, a category toggle at a displayed header label, and the global
toggle. -/
inductive Reachable (channels : List Channel) : SelState → Prop
  | init : Reachable channels (initState channels)
  | item (s : SelState) (i : Nat) : Reachable channels s →
      i ∈ toggleableIndices channels → Reachable channels (toggle_item s i)
  | cat (s : SelState) (label : String) : Reachable channels s →
      label ∈ headerLabels channels →
      Reachable channels (toggle_category channels s label)
  | global (s : SelState) : Reachable channels s →
      Reachable channels (toggle_global channels s)

/-- Outcome of pressing a terminal key in the `_checkbox_ui` loop. -/
inductive ConfirmResult where
  | browsing (s : SelState)
  | confirmed (indices : List Nat)
deriving DecidableEq

/-- The ENTER handler: `if sum(checked) == 0:` show the notice, wait for a
key and `continue` (the loop goes on browsing with the state untouched);
otherwise `return [i for i, c in enumerate(checked) if c]`. -/
def pressConfirm (s : SelState) : ConfirmResult :=
  if countChecked s = 0 then ConfirmResult.browsing s
  else ConfirmResult.confirmed ((s.checked.enum.filter (fun ic => ic.2)).map Prod.fst)

/-! ## Pagination (`_checkbox_ui` paging arithmetic) -/

/-- `FIRST_PAGE_ITEMS = 12` (the first page leaves room for the `All`
pseudo-entry). -/
def FIRST_PAGE_ITEMS : Nat := 12

/-- `ITEMS_PER_PAGE = 15`. -/
def ITEMS_PER_PAGE : Nat := 15

/-- The page-count computation: `remaining = len(display_items) - 12`;
one page when `remaining <= 0`, else `1 + ((remaining + 15 - 1) // 15)`
(the Python subtraction can go negative, which lands in the first branch;
in `Nat` that is exactly the `n ≤ 12` case). -/
def totalPages (n : Nat) : Nat :=
  if n ≤ FIRST_PAGE_ITEMS then 1
  else 1 + (n - FIRST_PAGE_ITEMS + ITEMS_PER_PAGE - 1) / ITEMS_PER_PAGE

/-- The slice of the display list shown on `page`: page 0 is
`[0, min(12, len))`, page `p ≥ 1` is `[12 + (p-1)*15, min(start+15, len))`
(computed identically at the render and the SPACE handler). -/
def pageSlice (items : List DisplayItem) (page : Nat) : List DisplayItem :=
  if page = 0 then items.take (min FIRST_PAGE_ITEMS items.length)
  else (items.drop (FIRST_PAGE_ITEMS + (page - 1) * ITEMS_PER_PAGE)).take ITEMS_PER_PAGE

/-! ## Line-oriented fallback parser (`_parse_selection`, `_select_channels_cli`)

`_parse_selection` splits the input on commas, strips each part, reads a
part containing `-` as `start, end = map(int, part.split('-'))` extended
with `range(start-1, end)`, any other part as `int(part) - 1`, and returns
`None` on any `ValueError`.  The resolved indices then go through
`list(set(selected_indices))` (CPython set deduplication — iteration in
hash-table slot order), a bounds filter `0 <= i < max_count`, and an
emptiness check. -/

/-- Python `str.strip()` / `int()`'s surrounding-whitespace tolerance,
restricted to ASCII whitespace: drop whitespace from both ends of the
character sequence. -/
def pyStrip (s : String) : String :=
  ⟨((s.data.dropWhile Char.isWhitespace).reverse.dropWhile Char.isWhitespace).reverse⟩

/-- Python `s.split(sep)` for a one-character separator: no collapsing of
empty parts, and the empty string yields one empty part. -/
def splitOnChar (sep : Char) : List Char → List (List Char)
  | [] => [[]]
  | c :: cs =>
    if c = sep then [] :: splitOnChar sep cs
    else
      match splitOnChar sep cs with
      | [] => [[c]]
      | h :: t => (c :: h) :: t

/-- `s.split(sep)` as strings. -/
def pySplit (s : String) (sep : Char) : List String :=
  (splitOnChar sep s.data).map (fun l => (⟨l⟩ : String))

/-- Python `str.lower()` (ASCII case folding suffices here). -/
def pyLower (s : String) : String :=
  ⟨s.data.map Char.toLower⟩

/-- Digits with optional single underscores between them, as Python's
`int()` accepts after the sign: accumulates the value, rejects a leading,
trailing or doubled underscore.  `prevDigit` says whether the previous
character was a digit. -/
def pyDigits : Option Nat → Bool → List Char → Option Nat
  | acc, _, [] => acc
  | acc, prevDigit, c :: cs =>
    if c.isDigit then
      pyDigits (some ((acc.getD 0) * 10 + (c.val.toNat - 48))) true cs
    else if c = '_' ∧ prevDigit = true ∧ cs ≠ [] then pyDigits acc false cs
    else none

/-- Python `int(s)` on a decimal string: strip whitespace, optional single
`+`/`-` sign, then a nonempty digit group (underscores allowed between
digits).  `none` embeds the `ValueError` the source catches.  (Python also
accepts non-ASCII decimal digits and non-ASCII whitespace; the selection
expressions this program reads are ASCII.) -/
def pyInt (s : String) : Option Int :=
  match (pyStrip s).data with
  | [] => none
  | '+' :: rest => (pyDigits none false rest).map (fun n => (n : Int))
  | '-' :: rest => (pyDigits none false rest).map (fun n => -(n : Int))
  | rest => (pyDigits none false rest).map (fun n => (n : Int))

/-- Python `range(a, b)` as a list: `a, a+1, …, b-1`, empty when `a ≥ b`. -/
def pyRange (a b : Int) : List Int :=
  (List.range (b - a).toNat).map (fun k => a + (k : Int))

/-- All parts of a `-`-split token through `pyInt`, failing if any fails
(the lazy `map(int, ...)` raises on the first bad part; a wrong part count
raises at the unpack — both are the same caught `ValueError`). -/
def pyIntList : List String → Option (List Int)
  | [] => some []
  | s :: ss =>
    match pyInt s, pyIntList ss with
    | some v, some vs => some (v :: vs)
    | _, _ => none

/-- One comma-separated token of `_parse_selection`: stripped, then either
the range branch (`'-' in part`: `start, end = map(int, part.split('-'))`
succeeds exactly when the split has two parts and both convert — one, three
or more parts, or a failing conversion, raise the caught `ValueError` —
and contributes `range(start-1, end)`) or the single-integer branch
(`int(part) - 1`). -/
def parseToken (part : String) : Option (List Int) :=
  let p := pyStrip part
  if p.data.contains '-' then
    match pyIntList (pySplit p '-') with
    | some [a, b] => some (pyRange (a - 1) b)
    | _ => none
  else (pyInt p).map (fun k => [k - 1])

/-- All tokens of the selection line, each through `parseToken`; the first
failure aborts (the source's first caught `ValueError` returns `None`). -/
def tokenLists : List String → Option (List (List Int))
  | [] => some []
  | t :: ts =>
    match parseToken t, tokenLists ts with
    | some l, some ls => some (l :: ls)
    | _, _ => none

/-- The token loop of `_parse_selection`: every token must parse, and the
per-token index lists are concatenated in order
(`selected_indices.extend`). -/
def resolveTokens (selection : String) : Option (List Int) :=
  (tokenLists (pySplit selection ',')).map List.flatten

/-! ### CPython `set` of ints, for `list(set(selected_indices))`

The deduplication step's *order* is CPython's hash-table iteration order,
so the table is modelled: open addressing over a power-of-two table
(initially 8 slots), probe sequence `i, i+1, …, i+9` (when the linear run
fits under the mask) followed by the jump
`perturb >>= 5; i = (i*5 + 1 + perturb) & mask` in 64-bit arithmetic,
growth to the next power of two above `4*used` (`2*used` above 50000
elements) once `fill*5 >= mask*3`, and iteration in slot order.  Int
hashes are the value reduced modulo `2^61 - 1` (sign preserved), with `-1`
mapped to `-2`.  The probe walk is given generous fuel; if the fuel ran
out (it does not on these tables) the model falls back to the first free
slot in table order, which keeps the element set exact in every case. -/

/-- Python `hash` of an int: reduce modulo the Mersenne prime `2^61 - 1`
keeping the sign, then map `-1` to `-2`. -/
def pyHashInt (i : Int) : Int :=
  let m : Int := 2 ^ 61 - 1
  let h := if 0 ≤ i then i % m else -((-i) % m)
  if h = -1 then -2 else h

/-- The slot sequence CPython probes for a given table mask, starting
point and perturb, `fuel` jump rounds long: each round checks `i` and,
when `i + 9 ≤ mask`, also `i+1 … i+9`, then jumps to
`(i*5 + 1 + (perturb >> 5)) & mask` with the shifted perturb. -/
def probeSlotSeq (mask : Nat) : Nat → Nat → Nat → List Nat
  | _, _, 0 => []
  | perturb, i, fuel + 1 =>
    (if i + 9 ≤ mask then (List.range 10).map (i + ·) else [i]) ++
      probeSlotSeq mask (perturb >>> 5) ((i * 5 + 1 + (perturb >>> 5)) % (mask + 1))
        fuel

/-- Insert a key known to be absent: the first unused slot along the probe
sequence receives it (`set_add_entry` / `set_insert_clean`).  The fallback
(first unused slot in table order, else a widening append) is unreachable
with this fuel but keeps the element set exact unconditionally. -/
def placeKey (table : List (Option Int)) (key : Int) : List (Option Int) :=
  let mask := table.length - 1
  let perturb := ((pyHashInt key) % (2 ^ 64 : Int)).toNat
  let start := perturb % (mask + 1)
  match (probeSlotSeq mask perturb start (64 + 2 * table.length)).find?
      (fun s => table.get? s == some none) with
  | some s => table.set s (some key)
  | none =>
    match (List.range table.length).find? (fun s => table.get? s == some none) with
    | some s => table.set s (some key)
    | none => table ++ [some key]

/-- `newsize = PySet_MINSIZE; while newsize <= minused: newsize <<= 1`,
with fuel standing in for the while loop (doubling from 8 passes `minused`
well within `minused + 1` rounds). -/
def setNewSizeAux : Nat → Nat → Nat → Nat
  | 0, n, _ => n
  | fuel + 1, n, minused => if n ≤ minused then setNewSizeAux fuel (2 * n) minused else n

/-- The resized table's slot count for a given `minused`. -/
def setNewSize (minused : Nat) : Nat :=
  setNewSizeAux (minused + 1) 8 minused

/-- `set_table_resize`: compute the new size and re-insert the active
entries in old-table slot order with the clean-insert probe. -/
def setResize (table : List (Option Int)) (minused : Nat) : List (Option Int) :=
  (table.filterMap id).foldl placeKey (List.replicate (setNewSize minused) none)

/-- `set_add_key`: no-op when the key is already in the table, else place
it and, when the new fill reaches `mask*3/5` (`fill*5 >= mask*3` with the
pre-insert mask), resize to `used > 50000 ? used*2 : used*4`. -/
def setAdd (table : List (Option Int)) (key : Int) : List (Option Int) :=
  if some key ∈ table then table
  else
    let t := placeKey table key
    let fill := (t.filterMap id).length
    let mask := table.length - 1
    if mask * 3 ≤ fill * 5 then
      setResize t (if 50000 < fill then fill * 2 else fill * 4)
    else t

/-- `list(set(xs))` for a list of ints: fold the inserts over the fresh
8-slot table, then read the occupied slots in order. -/
def pySetList (xs : List Int) : List Int :=
  (xs.foldl setAdd (List.replicate 8 none)).filterMap id

/-- `_parse_selection(selection, max_count)`: resolve the tokens,
deduplicate through `list(set(...))`, keep `0 <= i < max_count`, and turn
an empty remainder into `None` (`return selected_indices if
selected_indices else None`). -/
def parse_selection (selection : String) (max_count : Nat) : Option (List Int) :=
  match resolveTokens selection with
  | none => none
  | some idxs =>
    let kept := (pySetList idxs).filter (fun i => decide (0 ≤ i ∧ i < (max_count : Int)))
    if kept.isEmpty then none else some kept

/-- A default channel record, for the (unreachable) out-of-range index in
the embedding of Python's `channels[i]`. -/
def defaultChannel : Channel := ⟨"", 0, "", 0, "", none, 0, ""⟩

/-- One iteration of the `_select_channels_cli` prompt loop on one input
line: strip it, `"all"` (lowercased) selects the whole catalog
(`channels[:]`), otherwise run the inline copy of `_parse_selection`'s
algorithm against `len(channels)` and, on success, return
`[channels[i] for i in selected_indices]`; `none` re-prompts. -/
def select_channels_cli_step (channels : List Channel) (line : String) :
    Option (List Channel) :=
  let selection := pyStrip line
  if pyLower selection = "all" then some channels
  else (parse_selection selection channels.length).map
    (fun idxs => idxs.map (fun i => channels.getD i.toNat defaultChannel))

/-- The channel record of a channel row, `none` for a header (used to
state which items the display list shows). -/
def entryChannel : DisplayItem → Option Channel
  | DisplayItem.channelEntry ch _ => some ch
  | DisplayItem.categoryHeader _ => none

/-- The stored original index of a channel row, `none` for a header. -/
def entryIndex : DisplayItem → Option Nat
  | DisplayItem.channelEntry _ oi => some oi
  | DisplayItem.categoryHeader _ => none

/-! ### Concrete catalogs used by counterexamples and witnesses -/

/-- A two-channel catalog sharing one category. -/
def chanA : Channel := ⟨"g", 1, "a", 1, "t", some "A", 0, "d"⟩

/-- Second channel of the pair catalog. -/
def chanB : Channel := ⟨"g", 1, "b", 2, "t", some "A", 0, "d"⟩

/-- The pair catalog. -/
def pairChannels : List Channel := [chanA, chanB]

/-- A channel whose `category_name` is null (the key is present with value
`None`, as the catalog loader writes it for channels outside any
category). -/
def nullChan : Channel := ⟨"g", 1, "n", 3, "t", none, 0, "d"⟩

/-- A one-channel catalog. -/
def soloChannel : Channel := ⟨"g", 1, "s", 9, "t", some "A", 0, "d"⟩

/-- The `i`-th channel of the ten-channel catalog. -/
def numChan (i : Nat) : Channel := ⟨"g", 1, "c", i, "t", some "A", 0, "d"⟩

/-- A ten-channel catalog (distinct `channel_id`s). -/
def tenChannels : List Channel := (List.range 10).map numChan

/-- A catalog holding the same record twice and a distinct third one. -/
def dupChannels : List Channel := [chanA, chanA, chanB]

/-! ## Helper lemmas -/

/-- `all id` of a nonempty uniform vector is its value. -/
theorem all_id_replicate (n : Nat) (b : Bool) (hn : 1 ≤ n) :
    (List.replicate n b).all id = b := by
  induction n with
  | zero => omega
  | succ n ih =>
    cases Nat.eq_zero_or_pos n with
    | inl h => subst h; cases b <;> rfl
    | inr h => simp [List.replicate_succ, List.all_cons, ih h]

/-- Writing positions does not change the vector's length. -/
theorem foldl_set_length (b : Bool) (idxs : List Nat) :
    ∀ c : List Bool, (idxs.foldl (fun acc i => acc.set i b) c).length = c.length := by
  induction idxs with
  | nil => intro c; rfl
  | cons i t ih => intro c; rw [List.foldl_cons, ih, List.length_set]

/-- Every reachable state has a flag vector of the catalog's length, and
(over a nonempty catalog) its global flag equal to the conjunction of the
item flags. -/
theorem reachable_state (channels : List Channel) (s : SelState)
    (h : Reachable channels s) :
    s.checked.length = channels.length ∧
      (1 ≤ channels.length → s.all_checked = s.checked.all id) := by
  induction h with
  | init =>
    refine ⟨List.length_replicate _ _, fun hn => ?_⟩
    rw [initState, all_id_replicate _ _ hn]
  | item s i hr hi ih =>
    refine ⟨?_, fun hn => rfl⟩
    rw [toggle_item, List.length_set]
    exact ih.1
  | cat s label hr hl ih =>
    refine ⟨?_, fun hn => rfl⟩
    rw [toggle_category, foldl_set_length]
    exact ih.1
  | global s hr ih =>
    refine ⟨List.length_replicate _ _, fun hn => ?_⟩
    rw [toggle_global, all_id_replicate _ _ hn]

/-- A Boolean vector is all-true exactly when its true-count is its
length. -/
theorem filter_id_length_eq_iff (l : List Bool) :
    (l.filter id).length = l.length ↔ l.all id = true := by
  induction l with
  | nil => simp
  | cons b t ih =>
    cases b with
    | true => simp [List.filter_cons, ih]
    | false =>
      have hle := List.length_filter_le id t
      simp [List.filter_cons]
      omega

/-- Filtering an enumeration on the entry value keeps as many elements as
filtering the underlying list, whatever the start index. -/
theorem length_filter_enumFrom (n : Nat) (l : List Bool) :
    ((List.enumFrom n l).filter (fun ic => ic.2)).length = (l.filter id).length := by
  induction l generalizing n with
  | nil => rfl
  | cons b t ih =>
    cases b <;> simp [List.enumFrom, List.filter_cons, ih]

/-! ## Claim C1 -/

/-- Claim C1 is refuted on the code: a reachable partially-checked state is
not restored by applying the global toggle twice.  Concretely, toggling
item 0 from the initial state of the two-channel catalog reaches
`checked = [true, false]`, and a double global toggle turns that into
`checked = [false, false]`. -/
theorem toggle_global_twice_cex :
    ∃ s, Reachable pairChannels s ∧
      toggle_global pairChannels (toggle_global pairChannels s) ≠ s :=
  ⟨toggle_item (initState pairChannels) 0,
   Reachable.item _ 0 Reachable.init (by decide), by decide⟩

/-- Claim C1 (amended): applying the global toggle twice yields the uniform
state whose every item flag and whose global flag equal the prior global
flag; this equals the prior Selection State exactly when the prior checked
vector was uniformly the prior global flag (as after any global toggle, or
in the initial state). -/
theorem toggle_global_twice (channels : List Channel) (s : SelState) :
    toggle_global channels (toggle_global channels s) =
      ⟨List.replicate channels.length s.all_checked, s.all_checked⟩ ∧
    (toggle_global channels (toggle_global channels s) = s ↔
      s.checked = List.replicate channels.length s.all_checked) := by
  obtain ⟨c, g⟩ := s
  refine ⟨by simp [toggle_global], ?_, ?_⟩
  · intro h
    have hc := congrArg SelState.checked h
    simpa [toggle_global, Bool.not_not] using hc.symm
  · intro h
    simp [toggle_global, Bool.not_not, SelState.mk.injEq]
    exact h.symm

/-! ## Claim C2 -/

/-- Claim C2 meets a defect of the code: the builder files a null-category
channel under the `"未分類"` header, yet the category toggle's membership
test (`ch.get('category_name', '未分類') == category_name`) never matches
that channel, because the `category_name` key is present with value `None`
and `None == "未分類"` is false.  Toggling the `"未分類"` header of a
one-channel null-category catalog therefore changes nothing: the aggregate
stays `none` where the claim demands `all`. -/
theorem toggle_category_null_bug :
    organize_channels_by_category [nullChan] = [(uncategorized, [nullChan])] ∧
    headerLabels [nullChan] = [uncategorized] ∧
    toggle_category [nullChan] (initState [nullChan]) uncategorized =
      initState [nullChan] ∧
    countChecked (toggle_category [nullChan] (initState [nullChan]) uncategorized)
      = 0 := by decide

/-! ## Claim C3 -/

/-- Claim C3: over a catalog of at least one channel, every state reachable
by the interactive selector's operations (from the initial all-unchecked
state, by item toggles, category toggles and global toggles) satisfies
`global flag == (count_checked() == N)`. -/
theorem global_flag_invariant (channels : List Channel) (s : SelState)
    (hn : 1 ≤ channels.length) (hs : Reachable channels s) :
    (s.all_checked = true ↔ countChecked s = channels.length) := by
  obtain ⟨hlen, hflag⟩ := reachable_state channels s hs
  rw [hflag hn, countChecked, ← hlen]
  exact (filter_id_length_eq_iff s.checked).symm

/-- Witness for C3 at the one-channel catalog's initial state. -/
theorem global_flag_invariant_witness :
    ((initState [soloChannel]).all_checked = true ↔
      countChecked (initState [soloChannel]) = ([soloChannel] : List Channel).length) :=
  global_flag_invariant [soloChannel] (initState [soloChannel]) (by decide)
    Reachable.init

/-! ## Claim C9 -/

/-- Claim C9: pressing confirm with zero checked items leaves the session
browsing with the state untouched, and a confirmed result always carries a
nonempty index list (so the finalized selection holds at least one item). -/
theorem confirm_zero_stays_browsing (s : SelState) :
    (countChecked s = 0 ∧ pressConfirm s = ConfirmResult.browsing s) ∨
    (0 < countChecked s ∧ ∃ idxs,
      pressConfirm s = ConfirmResult.confirmed idxs ∧ idxs ≠ []) := by
  by_cases h : countChecked s = 0
  · exact Or.inl ⟨h, by rw [pressConfirm, if_pos h]⟩
  · refine Or.inr ⟨Nat.pos_of_ne_zero h, _, by rw [pressConfirm, if_neg h], ?_⟩
    have hlen : ((s.checked.enum.filter (fun ic => ic.2)).map Prod.fst).length
        = countChecked s := by
      rw [List.length_map, countChecked, List.enum]
      exact length_filter_enumFrom 0 s.checked
    intro hnil
    rw [hnil] at hlen
    exact h hlen.symm

/-! ## Claim C4 -/

/-- Slicing a list into `ceil(len/c)` chunks of size `c` and flattening
reproduces it. -/
theorem chunks_flatten (c : Nat) (hc : 0 < c) :
    ∀ (n : Nat) (l : List DisplayItem), l.length ≤ n →
      ((List.range ((l.length + c - 1) / c)).map
        (fun p => (l.drop (p * c)).take c)).flatten = l := by
  intro n
  induction n with
  | zero =>
    intro l hl
    have : l = [] := List.length_eq_zero.mp (Nat.le_zero.mp hl)
    subst this
    have h0 : (c - 1) / c = 0 := Nat.div_eq_of_lt (by omega)
    simp [h0]
  | succ n ih =>
    intro l hl
    cases l with
    | nil =>
      have h0 : (c - 1) / c = 0 := Nat.div_eq_of_lt (by omega)
      simp [h0]
    | cons a t =>
      simp only [List.length_cons] at hl
      have hcount : ((a :: t).length + c - 1) / c = t.length / c + 1 := by
        have heq : (a :: t).length + c - 1 = t.length + c := by
          simp only [List.length_cons]
          omega
        rw [heq, Nat.add_div_right _ hc]
      have htail : t.length / c = (((a :: t).drop c).length + c - 1) / c := by
        rw [List.length_drop, List.length_cons]
        rcases Nat.le_total (t.length + 1) c with h | h
        · have h1 : t.length + 1 - c = 0 := by omega
          rw [h1, Nat.zero_add]
          have h2 : (c - 1) / c = 0 := Nat.div_eq_of_lt (by omega)
          have h3 : t.length / c = 0 := Nat.div_eq_of_lt (by omega)
          rw [h2, h3]
        · have h1 : t.length + 1 - c + c - 1 = t.length := by omega
          rw [h1]
      rw [hcount, List.range_succ_eq_map, List.map_cons, List.flatten_cons,
        List.map_map]
      have hix : (fun p => ((a :: t).drop (p * c)).take c) ∘ Nat.succ =
          fun p => (((a :: t).drop c).drop (p * c)).take c := by
        funext p
        show ((a :: t).drop (Nat.succ p * c)).take c = _
        rw [List.drop_drop]
        congr 2
        rw [Nat.succ_mul]
        omega
      rw [hix, htail]
      have hlen : ((a :: t).drop c).length ≤ n := by
        rw [List.length_drop, List.length_cons]
        omega
      rw [ih _ hlen]
      simp [Nat.zero_mul, List.drop_zero]

/-- Claim C4: concatenating the pages of the display-list pagination in
order reproduces the full display sequence, and the page count is
`1 + ceil(max(0, N - FIRST_PAGE_CAPACITY) / PAGE_CAPACITY)` with
`FIRST_PAGE_CAPACITY = 12` and `PAGE_CAPACITY = 15`. -/
theorem pagination_exact (items : List DisplayItem) :
    ((List.range (totalPages items.length)).map (pageSlice items)).flatten = items ∧
    totalPages items.length =
      1 + (max (items.length - FIRST_PAGE_ITEMS) 0 + ITEMS_PER_PAGE - 1)
        / ITEMS_PER_PAGE := by
  constructor
  · by_cases h : items.length ≤ FIRST_PAGE_ITEMS
    · have h1 : totalPages items.length = 1 := by rw [totalPages, if_pos h]
      have h2 : min FIRST_PAGE_ITEMS items.length = items.length :=
        Nat.min_eq_right h
      have hr : List.range 1 = [0] := rfl
      rw [h1, hr, List.map_cons, List.map_nil, List.flatten_cons,
        List.flatten_nil, List.append_nil, pageSlice, if_pos rfl, h2,
        List.take_length]
    · have h1 : totalPages items.length =
          (items.length - FIRST_PAGE_ITEMS + ITEMS_PER_PAGE - 1) / ITEMS_PER_PAGE
            + 1 := by
        rw [totalPages, if_neg h]; omega
      rw [h1, List.range_succ_eq_map, List.map_cons, List.flatten_cons,
        List.map_map]
      have h2 : pageSlice items 0 = items.take FIRST_PAGE_ITEMS := by
        rw [pageSlice, if_pos rfl]
        congr 1
        omega
      have h3 : (pageSlice items ∘ Nat.succ) =
          fun p => ((items.drop FIRST_PAGE_ITEMS).drop (p * ITEMS_PER_PAGE)).take
            ITEMS_PER_PAGE := by
        funext p
        show pageSlice items (p + 1) = _
        rw [pageSlice, if_neg (Nat.succ_ne_zero p)]
        rw [List.drop_drop]
        simp [Nat.add_sub_cancel]
      have h4 : items.length - FIRST_PAGE_ITEMS + ITEMS_PER_PAGE - 1 =
          (items.drop FIRST_PAGE_ITEMS).length + ITEMS_PER_PAGE - 1 := by
        rw [List.length_drop]
      rw [h2, h3, h4,
        chunks_flatten ITEMS_PER_PAGE (by decide) (items.drop FIRST_PAGE_ITEMS).length
          (items.drop FIRST_PAGE_ITEMS) le_rfl]
      exact List.take_append_drop _ _
  · rw [totalPages]
    by_cases h : items.length ≤ FIRST_PAGE_ITEMS
    · rw [if_pos h]
      have h1 : items.length - FIRST_PAGE_ITEMS = 0 := by omega
      rw [h1]
      decide
    · rw [if_neg h]
      have h1 : max (items.length - FIRST_PAGE_ITEMS) 0 =
          items.length - FIRST_PAGE_ITEMS := Nat.max_eq_left (Nat.zero_le _)
      rw [h1]

/-! ## Display-list builder lemmas (for C5, C6, C10) -/

/-- `charsLe` is total. -/
theorem charsLe_total : ∀ as bs : List Char, charsLe as bs = true ∨ charsLe bs as = true := by
  intro as
  induction as with
  | nil => intro bs; left; rfl
  | cons a as ih =>
    intro bs
    cases bs with
    | nil => right; rfl
    | cons b bs =>
      rcases Nat.lt_trichotomy a.val.toNat b.val.toNat with h | h | h
      · left; simp [charsLe, h]
      · have h1 : ¬ a.val.toNat < b.val.toNat := by omega
        have h2 : ¬ b.val.toNat < a.val.toNat := by omega
        simpa [charsLe, h1, h2] using ih bs
      · right; simp [charsLe, h]

/-- `charsLe` is transitive. -/
theorem charsLe_trans : ∀ as bs cs : List Char,
    charsLe as bs = true → charsLe bs cs = true → charsLe as cs = true := by
  intro as
  induction as with
  | nil => intro bs cs h1 h2; rfl
  | cons a as ih =>
    intro bs cs h1 h2
    cases bs with
    | nil => simp [charsLe] at h1
    | cons b bs =>
      cases cs with
      | nil => simp [charsLe] at h2
      | cons c cs =>
        simp only [charsLe] at h1 h2 ⊢
        split_ifs at h1 h2 ⊢ <;>
          first
            | rfl
            | omega
            | (exact ih bs cs h1 h2)

instance : IsTotal String (fun a b => strLe a b = true) :=
  ⟨fun a b => charsLe_total a.data b.data⟩

instance : IsTrans String (fun a b => strLe a b = true) :=
  ⟨fun a b c => charsLe_trans a.data b.data c.data⟩

/-- Membership in the dict-key list. -/
theorem dictKeys_mem (a : String) : ∀ (seen l : List String),
    a ∈ dictKeys seen l ↔ a ∈ l ∧ a ∉ seen := by
  intro seen l
  induction l generalizing seen with
  | nil => simp [dictKeys]
  | cons b t ih =>
    rw [dictKeys]
    by_cases hb : b ∈ seen
    · rw [if_pos hb, ih]
      constructor
      · rintro ⟨h1, h2⟩
        exact ⟨List.mem_cons_of_mem _ h1, h2⟩
      · rintro ⟨h1, h2⟩
        rcases List.mem_cons.mp h1 with h | h
        · subst h; exact absurd hb h2
        · exact ⟨h, h2⟩
    · rw [if_neg hb, List.mem_cons]
      constructor
      · rintro (h | h)
        · subst h; exact ⟨List.mem_cons_self _ _, hb⟩
        · have h3 := (ih _).mp h
          exact ⟨List.mem_cons_of_mem _ h3.1,
            fun hs => h3.2 (List.mem_cons_of_mem _ hs)⟩
      · rintro ⟨h1, h2⟩
        by_cases hab : a = b
        · left; exact hab
        · rcases List.mem_cons.mp h1 with h | h
          · exact absurd h hab
          · right
            refine (ih _).mpr ⟨h, fun hs => ?_⟩
            rcases List.mem_cons.mp hs with h3 | h3
            · exact hab h3
            · exact h2 h3

/-- The dict-key list has no duplicates. -/
theorem dictKeys_nodup : ∀ (seen l : List String), (dictKeys seen l).Nodup := by
  intro seen l
  induction l generalizing seen with
  | nil => simp [dictKeys]
  | cons b t ih =>
    rw [dictKeys]
    by_cases hb : b ∈ seen
    · rw [if_pos hb]; exact ih seen
    · rw [if_neg hb]
      refine List.nodup_cons.mpr ⟨fun hmem => ?_, ih _⟩
      exact ((dictKeys_mem b _ _).mp hmem).2 (List.mem_cons_self _ _)

/-- The label list, written out. -/
theorem headerLabels_eq (channels : List Channel) :
    headerLabels channels =
      ((List.insertionSort (fun a b : String => strLe a b = true)
          (dictKeys [] (channels.map categoryKey))).filter
            (fun k => k ≠ uncategorized))
        ++ (if uncategorized ∈ dictKeys [] (channels.map categoryKey) then
            [uncategorized] else []) := by
  rw [headerLabels, organize_channels_by_category, List.map_append, List.map_map]
  congr 1
  · have hid : (Prod.fst ∘ fun k : String =>
        (k, channels.filter (fun ch => categoryKey ch == k))) = id := rfl
    rw [hid, List.map_id]
  · by_cases h : uncategorized ∈ dictKeys [] (channels.map categoryKey)
    · rw [if_pos h, if_pos h]; rfl
    · rw [if_neg h, if_neg h]; rfl

/-- The builder's category list is its label list paired with the label's
bucket (the `"未分類"` special-casing only moves that label to the end). -/
theorem organize_eq_map_labels (channels : List Channel) :
    organize_channels_by_category channels =
      (headerLabels channels).map
        (fun k => (k, channels.filter (fun ch => categoryKey ch == k))) := by
  rw [headerLabels_eq, List.map_append, organize_channels_by_category]
  congr 1
  by_cases h : uncategorized ∈ dictKeys [] (channels.map categoryKey)
  · rw [if_pos h, if_pos h]; rfl
  · rw [if_neg h, if_neg h]; rfl

/-- A label appears on a header exactly when some channel carries it as its
grouping key. -/
theorem mem_headerLabels (channels : List Channel) (a : String) :
    a ∈ headerLabels channels ↔ a ∈ channels.map categoryKey := by
  have hkeys : ∀ x : String,
      x ∈ dictKeys [] (channels.map categoryKey) ↔ x ∈ channels.map categoryKey := by
    intro x
    rw [dictKeys_mem]
    simp
  have hsort : ∀ x : String,
      x ∈ List.insertionSort (fun a b : String => strLe a b = true)
          (dictKeys [] (channels.map categoryKey)) ↔
        x ∈ dictKeys [] (channels.map categoryKey) :=
    fun x => (List.perm_insertionSort _ _).mem_iff
  rw [headerLabels_eq, List.mem_append, List.mem_filter]
  constructor
  · rintro (⟨h1, _⟩ | h2)
    · exact (hkeys a).mp ((hsort a).mp h1)
    · by_cases hu : uncategorized ∈ dictKeys [] (channels.map categoryKey)
      · rw [if_pos hu] at h2
        rw [List.mem_singleton.mp h2]
        exact (hkeys _).mp hu
      · rw [if_neg hu] at h2
        exact absurd h2 (List.not_mem_nil a)
  · intro h
    by_cases ha : a = uncategorized
    · right
      subst ha
      rw [if_pos ((hkeys uncategorized).mpr h)]
      exact List.mem_singleton.mpr rfl
    · left
      exact ⟨(hsort a).mpr ((hkeys a).mpr h), by simpa using ha⟩

/-- The header labels are pairwise distinct. -/
theorem headerLabels_nodup (channels : List Channel) :
    (headerLabels channels).Nodup := by
  rw [headerLabels_eq]
  have hnd : (List.insertionSort (fun a b : String => strLe a b = true)
      (dictKeys [] (channels.map categoryKey))).Nodup :=
    (List.perm_insertionSort _ _).nodup_iff.mpr (dictKeys_nodup [] _)
  refine List.Nodup.append (hnd.filter _) ?_ ?_
  · by_cases h : uncategorized ∈ dictKeys [] (channels.map categoryKey)
    · rw [if_pos h]; exact List.nodup_singleton _
    · rw [if_neg h]; exact List.nodup_nil
  · intro a ha hb
    have h1 := (List.mem_filter.mp ha).2
    by_cases h : uncategorized ∈ dictKeys [] (channels.map categoryKey)
    · rw [if_pos h] at hb
      rw [List.mem_singleton.mp hb] at h1
      simp at h1
    · rw [if_neg h] at hb
      exact absurd hb (List.not_mem_nil a)

/-- Flat-mapping over a mapped list composes the functions. -/
theorem flatMap_map_comp {α β γ : Type} (l : List α) (g : α → β) (f : β → List γ) :
    (l.map g).flatMap f = l.flatMap (fun a => f (g a)) := by
  induction l with
  | nil => rfl
  | cons a t ih => simp only [List.map_cons, List.flatMap_cons, ih]

/-- Flat-maps of pointwise-equal functions agree. -/
theorem flatMap_congr_mem {α β : Type} :
    ∀ (l : List α) (f g : α → List β), (∀ a ∈ l, f a = g a) →
      l.flatMap f = l.flatMap g := by
  intro l
  induction l with
  | nil => intro f g _; rfl
  | cons a t ih =>
    intro f g h
    rw [List.flatMap_cons, List.flatMap_cons, h a (List.mem_cons_self _ _),
      ih f g (fun x hx => h x (List.mem_cons_of_mem _ hx))]

/-- Grouping a list by a family of pairwise-distinct keys that covers every
element, then concatenating the groups, permutes the list. -/
theorem flatMap_buckets_perm :
    ∀ (labels : List String) (xs : List Channel), labels.Nodup →
      (∀ ch ∈ xs, categoryKey ch ∈ labels) →
      (labels.flatMap (fun k => xs.filter (fun ch => categoryKey ch == k))).Perm
        xs := by
  intro labels
  induction labels with
  | nil =>
    intro xs _ hcov
    have hnil : xs = [] := by
      cases xs with
      | nil => rfl
      | cons c t => exact absurd (hcov c (List.mem_cons_self _ _)) (List.not_mem_nil _)
    subst hnil
    exact List.Perm.refl _
  | cons l ls ih =>
    intro xs hnd hcov
    have hl : l ∉ ls := (List.nodup_cons.mp hnd).1
    have hnd1 : ls.Nodup := (List.nodup_cons.mp hnd).2
    rw [List.flatMap_cons]
    have hsw : ∀ k ∈ ls, xs.filter (fun ch => categoryKey ch == k)
        = (xs.filter (fun ch => !(categoryKey ch == l))).filter
            (fun ch => categoryKey ch == k) := by
      intro k hk
      rw [List.filter_filter]
      apply List.filter_congr
      intro ch _
      by_cases hck : categoryKey ch = k
      · have hkl : ¬ k = l := fun he => hl (he ▸ hk)
        simp [hck, hkl]
      · simp [hck]
    rw [flatMap_congr_mem ls _ _ hsw]
    have hcov2 : ∀ ch ∈ xs.filter (fun ch => !(categoryKey ch == l)),
        categoryKey ch ∈ ls := by
      intro ch hch
      obtain ⟨hin, hne⟩ := List.mem_filter.mp hch
      rcases List.mem_cons.mp (hcov ch hin) with h | h
      · rw [h] at hne; simp at hne
      · exact h
    have hperm := ih (xs.filter (fun ch => !(categoryKey ch == l))) hnd1 hcov2
    exact (List.Perm.append_left _ hperm).trans (List.filter_append_perm _ xs)

/-- The display list, indexed by labels instead of label-bucket pairs. -/
theorem display_eq_labels (channels : List Channel) :
    create_display_list channels =
      (headerLabels channels).flatMap (fun k =>
        DisplayItem.categoryHeader k ::
          (channels.filter (fun ch => categoryKey ch == k)).map
            (fun ch => DisplayItem.channelEntry ch (channels.indexOf ch))) := by
  rw [create_display_list, organize_eq_map_labels, flatMap_map_comp]

/-- Channel rows of a mapped bucket project back to the bucket. -/
theorem filterMap_entry_map (channels : List Channel) (l : List Channel) :
    List.filterMap entryChannel
      (l.map (fun ch => DisplayItem.channelEntry ch (channels.indexOf ch))) = l := by
  induction l with
  | nil => rfl
  | cons c t ih => simp [List.filterMap_cons, entryChannel, ih]

/-- Keeping only the channel rows of the display list yields the buckets in
label order. -/
theorem display_filterMap_entry (channels : List Channel) :
    (create_display_list channels).filterMap entryChannel =
      (headerLabels channels).flatMap
        (fun k => channels.filter (fun ch => categoryKey ch == k)) := by
  rw [display_eq_labels]
  generalize headerLabels channels = L
  induction L with
  | nil => rfl
  | cons k ks ih =>
    rw [List.flatMap_cons, List.flatMap_cons, List.filterMap_append, ih]
    congr 1
    exact filterMap_entry_map channels _

/-- The display list's channel rows are a permutation of the catalog. -/
theorem entryChannels_perm (channels : List Channel) :
    ((create_display_list channels).filterMap entryChannel).Perm channels := by
  rw [display_filterMap_entry]
  exact flatMap_buckets_perm (headerLabels channels) channels
    (headerLabels_nodup channels)
    (fun ch hch => (mem_headerLabels channels (categoryKey ch)).mpr
      (List.mem_map_of_mem _ hch))

/-- Each label heads exactly one header, and labels without channels head
none. -/
theorem count_header_display (channels : List Channel) (L : String) :
    (create_display_list channels).count (DisplayItem.categoryHeader L) =
      if L ∈ channels.map categoryKey then 1 else 0 := by
  rw [display_eq_labels]
  have hgen : ∀ Ls : List String,
      ((Ls.flatMap fun k => DisplayItem.categoryHeader k ::
        (channels.filter (fun ch => categoryKey ch == k)).map
          (fun ch => DisplayItem.channelEntry ch (channels.indexOf ch))).count
        (DisplayItem.categoryHeader L)) = Ls.count L := by
    intro Ls
    induction Ls with
    | nil => rfl
    | cons k ks ih =>
      rw [List.flatMap_cons, List.count_append, ih, List.count_cons,
        List.count_cons]
      have hent : ((channels.filter (fun ch => categoryKey ch == k)).map
          (fun ch => DisplayItem.channelEntry ch (channels.indexOf ch))).count
            (DisplayItem.categoryHeader L) = 0 := by
        refine List.count_eq_zero.mpr (fun hm => ?_)
        obtain ⟨ch, _, habs⟩ := List.mem_map.mp hm
        exact DisplayItem.noConfusion habs
      rw [hent]
      have hif : (DisplayItem.categoryHeader k == DisplayItem.categoryHeader L)
          = (k == L) := by
        by_cases h : k = L
        · simp [h]
        · simp [h, DisplayItem.categoryHeader.injEq]
      rw [hif]
      omega
  rw [hgen]
  by_cases h : L ∈ channels.map categoryKey
  · rw [if_pos h]
    exact List.count_eq_one_of_mem (headerLabels_nodup channels)
      ((mem_headerLabels channels L).mpr h)
  · rw [if_neg h]
    exact List.count_eq_zero_of_not_mem
      (fun hm => h ((mem_headerLabels channels L).mp hm))

/-! ## Claim C5 -/

/-- Claim C5: the display list's channel rows are a permutation of the
input catalog (each item exactly once, no loss, no duplication); a label
heads exactly one category header when some channel carries it and none
otherwise; and each category block — its header immediately followed by
its member rows — is a contiguous run of the display list. -/
theorem display_list_builder_exact (channels : List Channel) :
    ((create_display_list channels).filterMap entryChannel).Perm channels ∧
    (∀ L : String,
      (create_display_list channels).count (DisplayItem.categoryHeader L)
        = if L ∈ channels.map categoryKey then 1 else 0) ∧
    (∀ p ∈ organize_channels_by_category channels, p.2 ≠ [] ∧
      ∃ pre post, create_display_list channels =
        pre ++ (DisplayItem.categoryHeader p.1 ::
          p.2.map (fun ch => DisplayItem.channelEntry ch (channels.indexOf ch)))
          ++ post) := by
  refine ⟨entryChannels_perm channels, count_header_display channels, ?_⟩
  intro p hp
  rw [organize_eq_map_labels] at hp
  obtain ⟨k, hk, hpk⟩ := List.mem_map.mp hp
  subst hpk
  constructor
  · have hkm := (mem_headerLabels channels k).mp hk
    obtain ⟨ch, hch, hkey⟩ := List.mem_map.mp hkm
    have hmemf : ch ∈ channels.filter (fun c => categoryKey c == k) :=
      List.mem_filter.mpr ⟨hch, by simp [hkey]⟩
    intro hnil
    have hb : channels.filter (fun c => categoryKey c == k) = [] := hnil
    rw [hb] at hmemf
    exact List.not_mem_nil ch hmemf
  · obtain ⟨s, t, hst⟩ := List.append_of_mem hk
    rw [display_eq_labels, hst, List.flatMap_append, List.flatMap_cons]
    exact ⟨_, _, (List.append_assoc _ _ _).symm⟩

/-! ## Claim C6 -/

/-- Claim C6: the builder is a pure function of the catalog (two runs
agree), its category labels are strictly ascending in the code-point order
except that `"未分類"` (Uncategorized) always comes last when present, and
every category's bucket is a sublist of the catalog (items keep their
original relative order). -/
theorem category_order_deterministic (channels : List Channel) :
    create_display_list channels = create_display_list channels ∧
    (headerLabels channels).Pairwise
      (fun a b => b = uncategorized ∨ (strLe a b = true ∧ a ≠ b)) ∧
    (uncategorized ∈ headerLabels channels →
      (headerLabels channels).getLast? = some uncategorized) ∧
    (∀ p ∈ organize_channels_by_category channels, p.2.Sublist channels) := by
  refine ⟨rfl, ?_, ?_, ?_⟩
  · rw [headerLabels_eq]
    apply List.pairwise_append.mpr
    refine ⟨?_, ?_, ?_⟩
    · have hsorted : List.Pairwise (fun a b : String => strLe a b = true)
          (List.insertionSort (fun a b : String => strLe a b = true)
            (dictKeys [] (channels.map categoryKey))) :=
        List.sorted_insertionSort _ _
      have hnd : (List.insertionSort (fun a b : String => strLe a b = true)
          (dictKeys [] (channels.map categoryKey))).Nodup :=
        (List.perm_insertionSort _ _).nodup_iff.mpr (dictKeys_nodup [] _)
      have h1 : List.Pairwise (fun a b : String => strLe a b = true ∧ a ≠ b)
          ((List.insertionSort (fun a b : String => strLe a b = true)
            (dictKeys [] (channels.map categoryKey))).filter
              (fun k => k ≠ uncategorized)) :=
        (hsorted.and hnd).sublist (List.filter_sublist _)
      exact h1.imp (fun h => Or.inr h)
    · by_cases h : uncategorized ∈ dictKeys [] (channels.map categoryKey)
      · rw [if_pos h]; exact List.pairwise_singleton _ _
      · rw [if_neg h]; exact List.Pairwise.nil
    · intro a _ b hb
      by_cases h : uncategorized ∈ dictKeys [] (channels.map categoryKey)
      · rw [if_pos h] at hb
        exact Or.inl (List.mem_singleton.mp hb)
      · rw [if_neg h] at hb
        exact absurd hb (List.not_mem_nil b)
  · intro hmem
    have hu : uncategorized ∈ dictKeys [] (channels.map categoryKey) := by
      rw [headerLabels_eq] at hmem
      rcases List.mem_append.mp hmem with h | h
      · have h2 := (List.mem_filter.mp h).2
        simp at h2
      · by_cases hc : uncategorized ∈ dictKeys [] (channels.map categoryKey)
        · exact hc
        · rw [if_neg hc] at h
          exact absurd h (List.not_mem_nil _)
    rw [headerLabels_eq, if_pos hu]
    exact List.getLast?_concat _
  · intro p hp
    rw [organize_eq_map_labels] at hp
    obtain ⟨k, hk, hpk⟩ := List.mem_map.mp hp
    subst hpk
    exact List.filter_sublist channels

/-! ## Display-position mapping lemmas (for C10) -/

/-- `channels.index(ch)` returns the first position holding a record equal
to `ch`, and that position holds it. -/
theorem indexOf_spec : ∀ (channels : List Channel) (ch : Channel),
    ch ∈ channels →
      channels.get? (channels.indexOf ch) = some ch ∧
        ∀ j, j < channels.indexOf ch → channels.get? j ≠ some ch := by
  intro channels
  induction channels with
  | nil => intro ch h; exact absurd h (List.not_mem_nil ch)
  | cons a t ih =>
    intro ch h
    by_cases hac : a = ch
    · subst hac
      have h0 : (a :: t).indexOf a = 0 := by
        rw [List.indexOf_cons]
        simp
      rw [h0]
      exact ⟨rfl, fun j hj => absurd hj (Nat.not_lt_zero j)⟩
    · have h1 : (a :: t).indexOf ch = t.indexOf ch + 1 := by
        rw [List.indexOf_cons]
        have : (a == ch) = false := beq_false_of_ne hac
        rw [this]
        rfl
      have hmem : ch ∈ t := by
        rcases List.mem_cons.mp h with h2 | h2
        · exact absurd h2.symm hac
        · exact h2
      obtain ⟨hg, hmin⟩ := ih ch hmem
      rw [h1]
      refine ⟨hg, fun j hj => ?_⟩
      cases j with
      | zero =>
        intro habs
        exact hac (Option.some.inj habs)
      | succ j =>
        exact hmin j (Nat.lt_of_succ_lt_succ hj)

/-- Every channel row of the display list stores a catalog member and its
first catalog index. -/
theorem display_entry_shape (channels : List Channel) (ch : Channel) (oi : Nat)
    (h : DisplayItem.channelEntry ch oi ∈ create_display_list channels) :
    ch ∈ channels ∧ oi = channels.indexOf ch := by
  rw [display_eq_labels] at h
  obtain ⟨k, _, hblock⟩ := List.mem_flatMap.mp h
  rcases List.mem_cons.mp hblock with h1 | h1
  · exact absurd h1 (by simp)
  · obtain ⟨c, hc, hceq⟩ := List.mem_map.mp h1
    obtain ⟨hc1, hc2⟩ := DisplayItem.channelEntry.inj hceq
    subst hc1
    exact ⟨(List.mem_filter.mp hc).1, hc2.symm⟩

/-- What membership in `channel_map` means: the display position holds a
channel row whose stored index is the first catalog index of its record. -/
theorem channel_map_mem (channels : List Channel) (pr : Nat × Nat)
    (h : pr ∈ channel_map channels) :
    ∃ ch, (create_display_list channels).get? pr.1 =
        some (DisplayItem.channelEntry ch pr.2) ∧ ch ∈ channels ∧
        pr.2 = channels.indexOf ch := by
  rw [channel_map] at h
  obtain ⟨pi, hmem, hmatch⟩ := List.mem_filterMap.mp h
  obtain ⟨i, item⟩ := pi
  cases item with
  | categoryHeader name => exact absurd hmatch (by simp)
  | channelEntry ch oi =>
    have hpr : (i, oi) = pr := Option.some.inj hmatch
    subst hpr
    have hget : (create_display_list channels).get? i =
        some (DisplayItem.channelEntry ch oi) :=
      List.mem_enum_iff_get?.mp hmem
    obtain ⟨hchm, hidx⟩ :=
      display_entry_shape channels ch oi (List.get?_mem hget)
    exact ⟨ch, hget, hchm, hidx⟩

/-- Positions in a filterMap that preserves the first component stay a
sublist of the original positions. -/
theorem map_fst_filterMap_sublist {α γ : Type}
    (g : Nat × α → Option (Nat × γ)) (hg : ∀ x y, g x = some y → y.1 = x.1) :
    ∀ l : List (Nat × α),
      ((l.filterMap g).map Prod.fst).Sublist (l.map Prod.fst) := by
  intro l
  induction l with
  | nil => exact List.Sublist.refl _
  | cons x t ih =>
    rw [List.filterMap_cons]
    cases hx : g x with
    | none =>
      rw [List.map_cons]
      exact ih.trans (List.sublist_cons_self _ _)
    | some y =>
      rw [List.map_cons, List.map_cons, hg x y hx]
      exact ih.cons₂ _

/-- The display positions recorded in `channel_map` are pairwise
distinct. -/
theorem channel_map_fst_nodup (channels : List Channel) :
    ((channel_map channels).map Prod.fst).Nodup := by
  have hsub := map_fst_filterMap_sublist
    (fun pi : Nat × DisplayItem => match pi.2 with
      | DisplayItem.channelEntry _ oi => some (pi.1, oi)
      | DisplayItem.categoryHeader _ => none)
    (by
      intro x y hxy
      obtain ⟨i, item⟩ := x
      cases item with
      | categoryHeader name => exact absurd hxy (by simp)
      | channelEntry ch oi => exact (Option.some.inj hxy) ▸ rfl)
    (create_display_list channels).enum
  rw [List.enum_map_fst] at hsub
  exact hsub.nodup (List.nodup_range _)

/-- The stored indices of `channel_map`, in display order. -/
theorem channel_map_snd_eq_filterMap (channels : List Channel) :
    (channel_map channels).map Prod.snd =
      (create_display_list channels).filterMap entryIndex := by
  rw [channel_map, List.enum]
  generalize create_display_list channels = items
  generalize 0 = n
  induction items generalizing n with
  | nil => rfl
  | cons item t ih =>
    cases item with
    | categoryHeader name =>
      simp only [List.enumFrom, List.filterMap_cons, entryIndex]
      exact ih _
    | channelEntry ch oi =>
      simp only [List.enumFrom, List.filterMap_cons, entryIndex, List.map_cons]
      rw [ih]

/-- Index extraction from a mapped bucket yields the mapped indices. -/
theorem filterMap_entryIndex_map (channels : List Channel) (l : List Channel) :
    List.filterMap entryIndex
      (l.map (fun ch => DisplayItem.channelEntry ch (channels.indexOf ch))) =
      l.map (fun ch => channels.indexOf ch) := by
  induction l with
  | nil => rfl
  | cons c t ih =>
    simp only [List.map_cons, List.filterMap_cons, entryIndex]
    rw [ih]

/-- The stored indices are the first catalog indices of the channel rows in
display order. -/
theorem display_filterMap_entryIndex (channels : List Channel) :
    (create_display_list channels).filterMap entryIndex =
      ((create_display_list channels).filterMap entryChannel).map
        (fun ch => channels.indexOf ch) := by
  rw [display_eq_labels]
  generalize headerLabels channels = L
  induction L with
  | nil => rfl
  | cons k ks ih =>
    rw [List.flatMap_cons, List.filterMap_append, List.filterMap_append,
      List.map_append, ih]
    congr 1
    have hL : List.filterMap entryIndex (DisplayItem.categoryHeader k ::
        (channels.filter (fun ch => categoryKey ch == k)).map
          (fun ch => DisplayItem.channelEntry ch (channels.indexOf ch)))
        = (channels.filter (fun ch => categoryKey ch == k)).map
            (fun ch => channels.indexOf ch) :=
      filterMap_entryIndex_map channels _
    have hR : List.filterMap entryChannel (DisplayItem.categoryHeader k ::
        (channels.filter (fun ch => categoryKey ch == k)).map
          (fun ch => DisplayItem.channelEntry ch (channels.indexOf ch)))
        = channels.filter (fun ch => categoryKey ch == k) :=
      filterMap_entry_map channels _
    rw [hL, hR]

/-! ## Claim C10 -/

/-- Claim C10: every `channel_map` entry points its display position at a
channel row whose stored index is the smallest catalog index holding an
equal record (`channels.index` first-occurrence semantics); the
position-to-index mapping is injective exactly when the catalog records
are pairwise distinct; and two display rows holding equal records are
mapped to the same original index (the first occurrence's). -/
theorem display_index_mapping (channels : List Channel) :
    (∀ pr ∈ channel_map channels, ∃ ch,
      (create_display_list channels).get? pr.1 =
          some (DisplayItem.channelEntry ch pr.2) ∧
        channels.get? pr.2 = some ch ∧
        ∀ j, j < pr.2 → channels.get? j ≠ some ch) ∧
    ((∀ pr ∈ channel_map channels, ∀ qr ∈ channel_map channels,
        pr.2 = qr.2 → pr.1 = qr.1) ↔ channels.Nodup) ∧
    (∀ pr ∈ channel_map channels, ∀ qr ∈ channel_map channels, ∀ ch,
      (create_display_list channels).get? pr.1 =
          some (DisplayItem.channelEntry ch pr.2) →
      (create_display_list channels).get? qr.1 =
          some (DisplayItem.channelEntry ch qr.2) →
      pr.2 = qr.2) := by
  have hsnd : (channel_map channels).map Prod.snd =
      ((create_display_list channels).filterMap entryChannel).map
        (fun ch => channels.indexOf ch) := by
    rw [channel_map_snd_eq_filterMap, display_filterMap_entryIndex]
  refine ⟨?_, ⟨?_, ?_⟩, ?_⟩
  · intro pr hpr
    obtain ⟨ch, hget, hmem, hidx⟩ := channel_map_mem channels pr hpr
    obtain ⟨hg2, hmin⟩ := indexOf_spec channels ch hmem
    refine ⟨ch, hget, ?_, ?_⟩
    · rw [hidx]; exact hg2
    · rw [hidx]; exact hmin
  · intro hinj
    have hsndnd : ((channel_map channels).map Prod.snd).Nodup := by
      by_contra hnot
      have hex : ∃ a, ([a, a]).Sublist ((channel_map channels).map Prod.snd) := by
        by_contra hne
        exact hnot (List.nodup_iff_sublist.mpr (fun a ha => hne ⟨a, ha⟩))
      obtain ⟨a, ha⟩ := hex
      obtain ⟨l2, hl2sub, hl2eq⟩ := List.sublist_map_iff.mp ha
      cases l2 with
      | nil => simp at hl2eq
      | cons pr l2a =>
        cases l2a with
        | nil => simp at hl2eq
        | cons qr l2b =>
          cases l2b with
          | cons x l2c => simp at hl2eq
          | nil =>
            simp only [List.map_cons, List.map_nil, List.cons.injEq,
              and_true] at hl2eq
            have h2 : pr.2 = qr.2 := by rw [← hl2eq.1, ← hl2eq.2]
            by_cases hpq : pr = qr
            · subst hpq
              have hfst : ([pr.1, pr.1]).Sublist
                  ((channel_map channels).map Prod.fst) := by
                have := hl2sub.map Prod.fst
                simpa using this
              exact List.nodup_iff_sublist.mp (channel_map_fst_nodup channels)
                pr.1 hfst
            · have h1 := hinj pr (hl2sub.subset (by simp)) qr
                (hl2sub.subset (by simp)) h2
              exact hpq (Prod.ext_iff.mpr ⟨h1, h2⟩)
    have hmapnd : (((create_display_list channels).filterMap entryChannel).map
        (fun ch => channels.indexOf ch)).Nodup := by
      rw [← hsnd]; exact hsndnd
    have hech : ((create_display_list channels).filterMap entryChannel).Nodup :=
      List.Nodup.of_map _ hmapnd
    exact ((entryChannels_perm channels).nodup_iff).mp hech
  · intro hnd pr hpr qr hqr heq
    have hechnd : ((create_display_list channels).filterMap entryChannel).Nodup :=
      ((entryChannels_perm channels).nodup_iff).mpr hnd
    have hmapnd : (((create_display_list channels).filterMap entryChannel).map
        (fun ch => channels.indexOf ch)).Nodup := by
      refine List.Nodup.map_on ?_ hechnd
      intro x hx y hy hxy
      have hxm : x ∈ channels := ((entryChannels_perm channels).mem_iff).mp hx
      have hym : y ∈ channels := ((entryChannels_perm channels).mem_iff).mp hy
      have hgx := (indexOf_spec channels x hxm).1
      have hgy := (indexOf_spec channels y hym).1
      rw [hxy] at hgx
      exact Option.some.inj (hgx.symm.trans hgy)
    have hsndnd : ((channel_map channels).map Prod.snd).Nodup := by
      rw [hsnd]; exact hmapnd
    have hpq := List.inj_on_of_nodup_map hsndnd hpr hqr heq
    rw [hpq]
  · intro pr hpr qr hqr ch hget1 hget2
    obtain ⟨ch1, hg1, hm1, hi1⟩ := channel_map_mem channels pr hpr
    obtain ⟨ch2, hg2, hm2, hi2⟩ := channel_map_mem channels qr hqr
    have e1 : ch1 = ch :=
      (DisplayItem.channelEntry.inj (Option.some.inj (hg1.symm.trans hget1))).1
    have e2 : ch2 = ch :=
      (DisplayItem.channelEntry.inj (Option.some.inj (hg2.symm.trans hget2))).1
    rw [hi1, hi2, e1, e2]

/-! ## CPython-set model lemmas (for C7, C8) -/

/-- Writing a key into an unused slot adds exactly that key to the table's
occupied slots (as a permutation, in particular as a set). -/
theorem perm_set_none : ∀ (t : List (Option Int)) (s : Nat) (k : Int),
    t.get? s = some none →
      ((t.set s (some k)).filterMap id).Perm (k :: t.filterMap id) := by
  intro t
  induction t with
  | nil => intro s k h; simp at h
  | cons a t ih =>
    intro s k h
    cases s with
    | zero =>
      have ha : a = none := Option.some.inj h
      subst ha
      simp [List.set]
    | succ s =>
      have h2 := ih s k h
      cases a with
      | none =>
        simpa [List.set, List.filterMap_cons] using h2
      | some b =>
        simp only [List.set, List.filterMap_cons, id]
        refine (List.Perm.cons b h2).trans ?_
        exact List.Perm.swap k b _

/-- `placeKey` adds its key to the occupied slots, whatever branch runs. -/
theorem placeKey_perm (t : List (Option Int)) (k : Int) :
    ((placeKey t k).filterMap id).Perm (k :: t.filterMap id) := by
  rw [placeKey]
  cases hf : (probeSlotSeq (t.length - 1)
      (((pyHashInt k) % (2 ^ 64 : Int)).toNat)
      ((((pyHashInt k) % (2 ^ 64 : Int)).toNat) % (t.length - 1 + 1))
      (64 + 2 * t.length)).find? (fun s => t.get? s == some none) with
  | some s =>
    have hp := List.find?_some hf
    have hs : t.get? s = some none := eq_of_beq hp
    simpa using perm_set_none t s k hs
  | none =>
    cases hg : (List.range t.length).find? (fun s => t.get? s == some none) with
    | some s =>
      have hp := List.find?_some hg
      have hs : t.get? s = some none := eq_of_beq hp
      simpa using perm_set_none t s k hs
    | none =>
      simp only [List.filterMap_append, List.filterMap_cons, id,
        List.filterMap_nil]
      exact List.perm_append_singleton k _

/-- Folding `placeKey` over keys inserts them all. -/
theorem foldl_placeKey_perm : ∀ (es : List Int) (t : List (Option Int)),
    ((es.foldl placeKey t).filterMap id).Perm (es ++ t.filterMap id) := by
  intro es
  induction es with
  | nil => intro t; exact List.Perm.refl _
  | cons e es ih =>
    intro t
    rw [List.foldl_cons]
    refine (ih (placeKey t e)).trans ?_
    refine (List.Perm.append_left es (placeKey_perm t e)).trans ?_
    exact List.perm_middle

/-- An all-unused table holds no keys. -/
theorem filterMap_id_replicate_none (n : Nat) :
    (List.replicate n (none : Option Int)).filterMap id = [] := by
  induction n with
  | zero => rfl
  | succ n ih => simp [List.replicate_succ, List.filterMap_cons, ih]

/-- Resizing preserves the key set. -/
theorem setResize_perm (t : List (Option Int)) (m : Nat) :
    ((setResize t m).filterMap id).Perm (t.filterMap id) := by
  rw [setResize]
  refine (foldl_placeKey_perm _ _).trans ?_
  rw [filterMap_id_replicate_none, List.append_nil]

/-- A key is among a table's occupied slots exactly when its slot is. -/
theorem mem_filterMap_id (t : List (Option Int)) (k : Int) :
    k ∈ t.filterMap id ↔ some k ∈ t := by
  rw [List.mem_filterMap]
  constructor
  · rintro ⟨a, ha, haeq⟩
    rw [show a = some k from haeq] at ha
    exact ha
  · intro h
    exact ⟨some k, h, rfl⟩

/-- One `set_add_key` step: the key set gains the key (or stays put). -/
theorem setAdd_perm (t : List (Option Int)) (k : Int) :
    ((setAdd t k).filterMap id).Perm
      (if k ∈ t.filterMap id then t.filterMap id else k :: t.filterMap id) := by
  rw [setAdd]
  by_cases h : some k ∈ t
  · rw [if_pos h, if_pos ((mem_filterMap_id t k).mpr h)]
  · rw [if_neg h, if_neg (fun hm => h ((mem_filterMap_id t k).mp hm))]
    by_cases hr : (t.length - 1) * 3 ≤ ((placeKey t k).filterMap id).length * 5
    · rw [if_pos hr]
      exact (setResize_perm _ _).trans (placeKey_perm t k)
    · rw [if_neg hr]
      exact placeKey_perm t k

/-- Folding `set_add_key` keeps the key set without duplicates and equal to
the keys seen so far. -/
theorem foldl_setAdd_inv : ∀ (xs : List Int) (t : List (Option Int)),
    (t.filterMap id).Nodup →
      ((xs.foldl setAdd t).filterMap id).Nodup ∧
      ∀ a, a ∈ (xs.foldl setAdd t).filterMap id ↔ a ∈ xs ∨ a ∈ t.filterMap id := by
  intro xs
  induction xs with
  | nil =>
    intro t h
    exact ⟨h, fun a => by simp⟩
  | cons x xs ih =>
    intro t h
    rw [List.foldl_cons]
    have hstep := setAdd_perm t x
    have hnd2 : ((setAdd t x).filterMap id).Nodup := by
      refine hstep.nodup_iff.mpr ?_
      by_cases hx : x ∈ t.filterMap id
      · rw [if_pos hx]; exact h
      · rw [if_neg hx]; exact List.nodup_cons.mpr ⟨hx, h⟩
    obtain ⟨hnd3, hmem3⟩ := ih (setAdd t x) hnd2
    refine ⟨hnd3, fun a => ?_⟩
    rw [hmem3 a]
    have hmem2 : a ∈ (setAdd t x).filterMap id ↔ a = x ∨ a ∈ t.filterMap id := by
      rw [hstep.mem_iff]
      by_cases hx : x ∈ t.filterMap id
      · rw [if_pos hx]
        constructor
        · exact Or.inr
        · rintro (h1 | h1)
          · rw [h1]; exact hx
          · exact h1
      · rw [if_neg hx, List.mem_cons]
    rw [hmem2, List.mem_cons]
    tauto

/-- `list(set(xs))` has no duplicates. -/
theorem pySetList_nodup (xs : List Int) : (pySetList xs).Nodup :=
  (foldl_setAdd_inv xs (List.replicate 8 none)
    (by rw [filterMap_id_replicate_none]; exact List.nodup_nil)).1

/-- `list(set(xs))` holds exactly the elements of `xs`. -/
theorem pySetList_mem (xs : List Int) (a : Int) : a ∈ pySetList xs ↔ a ∈ xs := by
  have h := (foldl_setAdd_inv xs (List.replicate 8 none)
    (by rw [filterMap_id_replicate_none]; exact List.nodup_nil)).2 a
  rw [pySetList, h, filterMap_id_replicate_none]
  simp

/-! ## Fallback-parser lemmas (for C7, C8) -/

/-- The token loop fails exactly when some token fails. -/
theorem tokenLists_eq_none : ∀ ts : List String,
    tokenLists ts = none ↔ ∃ t ∈ ts, parseToken t = none := by
  intro ts
  induction ts with
  | nil => simp [tokenLists]
  | cons t ts ih =>
    rw [tokenLists]
    cases ht : parseToken t with
    | none =>
      cases hts : tokenLists ts with
      | none =>
        constructor
        · intro _; exact ⟨t, List.mem_cons_self _ _, ht⟩
        · intro _; rfl
      | some ls =>
        constructor
        · intro _; exact ⟨t, List.mem_cons_self _ _, ht⟩
        · intro _; rfl
    | some l =>
      cases hts : tokenLists ts with
      | none =>
        constructor
        · intro _
          obtain ⟨u, hu, hun⟩ := ih.mp hts
          exact ⟨u, List.mem_cons_of_mem _ hu, hun⟩
        · intro _; rfl
      | some ls =>
        constructor
        · intro habs; exact absurd habs (by simp)
        · rintro ⟨u, hu, hun⟩
          rcases List.mem_cons.mp hu with h1 | h1
          · rw [h1] at hun; rw [hun] at ht; exact absurd ht (by simp)
          · have h2 : tokenLists ts = none := ih.mpr ⟨u, h1, hun⟩
            rw [h2] at hts; exact absurd hts (by simp)

/-- What a successful `_parse_selection` returns: the in-bounds part of the
deduplicated resolved indices, nonempty. -/
theorem parse_selection_some_iff (selection : String) (N : Nat)
    (idxs : List Int) :
    parse_selection selection N = some idxs ↔
      ∃ l, resolveTokens selection = some l ∧
        ((pySetList l).filter (fun i => decide (0 ≤ i ∧ i < (N : Int)))) = idxs ∧
        idxs ≠ [] := by
  rw [parse_selection]
  cases hr : resolveTokens selection with
  | none =>
    constructor
    · intro habs; exact absurd habs (by simp)
    · rintro ⟨l, hl, _⟩; exact absurd hl (by simp)
  | some l =>
    show (if ((pySetList l).filter
        (fun i => decide (0 ≤ i ∧ i < (N : Int)))).isEmpty = true
      then none
      else some ((pySetList l).filter
        (fun i => decide (0 ≤ i ∧ i < (N : Int))))) = some idxs ↔ _
    by_cases he : ((pySetList l).filter
        (fun i => decide (0 ≤ i ∧ i < (N : Int)))).isEmpty = true
    · rw [if_pos he]
      constructor
      · intro habs; exact absurd habs (by simp)
      · rintro ⟨l2, hl2, hfil, hne⟩
        have hll : l = l2 := Option.some.inj hl2
        subst hll
        rw [List.isEmpty_iff] at he
        rw [hfil] at he
        exact absurd he.symm (Ne.symm hne)
    · rw [if_neg he]
      constructor
      · intro hsome
        refine ⟨l, rfl, Option.some.inj hsome, ?_⟩
        intro hnil
        rw [← Option.some.inj hsome] at hnil
        exact he (List.isEmpty_iff.mpr hnil)
      · rintro ⟨l2, hl2, hfil, _⟩
        have hll : l = l2 := Option.some.inj hl2
        subst hll
        rw [hfil]

/-- A successful parse returns a duplicate-free index list. -/
theorem parse_selection_nodup (selection : String) (N : Nat) (idxs : List Int)
    (h : parse_selection selection N = some idxs) : idxs.Nodup := by
  obtain ⟨l, _, heq, _⟩ := (parse_selection_some_iff selection N idxs).mp h
  rw [← heq]
  exact (pySetList_nodup l).filter _

/-- A successful parse returns exactly the in-bounds resolved indices, as a
set. -/
theorem parse_selection_mem (selection : String) (N : Nat) (idxs : List Int)
    (l : List Int) (hr : resolveTokens selection = some l)
    (h : parse_selection selection N = some idxs) :
    ∀ i : Int, i ∈ idxs ↔ i ∈ l ∧ (0 ≤ i ∧ i < (N : Int)) := by
  obtain ⟨l2, hl2, heq, _⟩ := (parse_selection_some_iff selection N idxs).mp h
  have hll : l = l2 := Option.some.inj (hr.symm.trans hl2)
  subst hll
  intro i
  rw [← heq, List.mem_filter, pySetList_mem]
  simp

/-- Failure analysis of `_parse_selection`: `None` exactly on a bad token
or when no resolved index survives the bounds filter. -/
theorem parse_selection_none_iff (selection : String) (N : Nat) :
    parse_selection selection N = none ↔
      (∃ part ∈ pySplit selection ',', parseToken part = none) ∨
      (∃ idxs, resolveTokens selection = some idxs ∧
        ∀ i ∈ idxs, ¬(0 ≤ i ∧ i < (N : Int))) := by
  rw [parse_selection]
  cases hr : resolveTokens selection with
  | none =>
    have htok : ∃ part ∈ pySplit selection ',', parseToken part = none := by
      apply (tokenLists_eq_none _).mp
      rw [resolveTokens] at hr
      exact Option.map_eq_none'.mp hr
    constructor
    · intro _; exact Or.inl htok
    · intro _; rfl
  | some l =>
    show (if ((pySetList l).filter
        (fun i => decide (0 ≤ i ∧ i < (N : Int)))).isEmpty = true
      then none
      else some ((pySetList l).filter
        (fun i => decide (0 ≤ i ∧ i < (N : Int))))) = none ↔ _
    by_cases he : ((pySetList l).filter
        (fun i => decide (0 ≤ i ∧ i < (N : Int)))).isEmpty = true
    · rw [if_pos he]
      have hall : ∀ i ∈ l, ¬(0 ≤ i ∧ i < (N : Int)) := by
        intro i hi
        have hif : i ∈ pySetList l := (pySetList_mem l i).mpr hi
        have hfe := List.isEmpty_iff.mp he
        have h3 := List.filter_eq_nil.mp hfe i hif
        simpa using h3
      constructor
      · intro _; exact Or.inr ⟨l, rfl, hall⟩
      · intro _; rfl
    · rw [if_neg he]
      constructor
      · intro habs; exact absurd habs (by simp)
      · rintro (⟨part, hp, hpn⟩ | ⟨idxs, hidxs, hall⟩)
        · have h3 : tokenLists (pySplit selection ',') = none :=
            (tokenLists_eq_none _).mpr ⟨part, hp, hpn⟩
          rw [resolveTokens, h3] at hr
          exact absurd hr (by simp)
        · have hll : l = idxs := Option.some.inj hidxs
          subst hll
          have hfe : (pySetList l).filter
              (fun i => decide (0 ≤ i ∧ i < (N : Int))) = [] := by
            apply List.filter_eq_nil.mpr
            intro a ha
            have ham : a ∈ l := (pySetList_mem l a).mp ha
            simpa using hall a ham
          exact absurd (List.isEmpty_iff.mpr hfe) he

/-! ## Claim C7 -/

set_option maxRecDepth 40000 in
/-- Claim C7: a single token `k` resolves to index `k-1` and a range `a-b`
to indices `a-1 … b-1`; the parser fails exactly when some comma-separated
token is neither a valid integer nor a valid range, or when no resolved
index survives de-duplication and the `0 ≤ i < N` filter; in particular
`"1,3,5-7"` over 10 items yields `{0,2,4,5,6}`, the out-of-bounds `"0"`
and `"11"` are filtered away (failing when nothing remains), and `"abc"`
fails. -/
theorem parse_selection_spec :
    (∀ (selection : String) (N : Nat), parse_selection selection N = none ↔
      (∃ part ∈ pySplit selection ',', parseToken part = none) ∨
      (∃ idxs, resolveTokens selection = some idxs ∧
        ∀ i ∈ idxs, ¬(0 ≤ i ∧ i < (N : Int)))) ∧
    parseToken "3" = some [2] ∧
    parseToken "5-7" = some [4, 5, 6] ∧
    parse_selection "1,3,5-7" 10 = some [0, 2, 4, 5, 6] ∧
    parse_selection "0" 10 = none ∧
    parse_selection "11" 10 = none ∧
    parse_selection "0,5" 10 = some [4] ∧
    parse_selection "abc" 10 = none :=
  ⟨parse_selection_none_iff, by decide, by decide, by decide, by decide,
    by decide, by decide, by decide⟩

/-! ## Claim C8 -/

set_option maxRecDepth 40000 in
/-- Claim C8 is refuted on the code: over the ten-channel catalog, the
inputs `"9,1"` and `"1,9"` resolve to the same index set `{0, 8}`, yet the
fallback selector returns the items in hash-table iteration order — for
`"9,1"` that is catalog positions 8 then 0, which is neither the original
catalog order nor equal to the output for `"1,9"`. -/
theorem cli_selector_order_cex :
    select_channels_cli_step tenChannels "9,1" = some [numChan 8, numChan 0] ∧
    select_channels_cli_step tenChannels "1,9" = some [numChan 0, numChan 8] ∧
    parse_selection "9,1" 10 = some [8, 0] ∧
    parse_selection "1,9" 10 = some [0, 8] ∧
    (∀ i : Int, i ∈ ([8, 0] : List Int) ↔ i ∈ ([0, 8] : List Int)) ∧
    [numChan 8, numChan 0] ≠ [numChan 0, numChan 8] := by
  refine ⟨by decide, by decide, by decide, by decide, ?_, by decide⟩
  intro i
  simp only [List.mem_cons, List.not_mem_nil, or_false]
  exact or_comm

/-- Claim C8 (amended): for two successfully parsed selection expressions
that resolve to the same index set, the fallback selector returns the same
set of items, each exactly once — the outputs are permutations of each
other — but the order follows the CPython set-iteration order of the
deduplicated indices and may differ between the two inputs (and from the
catalog order). -/
theorem cli_selector_same_set (channels : List Channel) (sel1 sel2 : String)
    (idxs1 idxs2 : List Int)
    (hna1 : pyLower (pyStrip sel1) ≠ "all")
    (hna2 : pyLower (pyStrip sel2) ≠ "all")
    (h1 : parse_selection (pyStrip sel1) channels.length = some idxs1)
    (h2 : parse_selection (pyStrip sel2) channels.length = some idxs2)
    (hset : ∀ i : Int, i ∈ idxs1 ↔ i ∈ idxs2) :
    select_channels_cli_step channels sel1 =
        some (idxs1.map (fun i => channels.getD i.toNat defaultChannel)) ∧
    select_channels_cli_step channels sel2 =
        some (idxs2.map (fun i => channels.getD i.toNat defaultChannel)) ∧
    (idxs1.map (fun i => channels.getD i.toNat defaultChannel)).Perm
      (idxs2.map (fun i => channels.getD i.toNat defaultChannel)) := by
  have hnd1 := parse_selection_nodup _ _ _ h1
  have hnd2 := parse_selection_nodup _ _ _ h2
  refine ⟨?_, ?_, ?_⟩
  · show (if pyLower (pyStrip sel1) = "all" then some channels
      else (parse_selection (pyStrip sel1) channels.length).map
        (fun idxs => idxs.map (fun i => channels.getD i.toNat defaultChannel))) = _
    rw [if_neg hna1, h1]
    rfl
  · show (if pyLower (pyStrip sel2) = "all" then some channels
      else (parse_selection (pyStrip sel2) channels.length).map
        (fun idxs => idxs.map (fun i => channels.getD i.toNat defaultChannel))) = _
    rw [if_neg hna2, h2]
    rfl
  · exact ((List.perm_ext_iff_of_nodup hnd1 hnd2).mpr hset).map _

set_option maxRecDepth 40000 in
/-- Witness for the amended C8 at the ten-channel catalog with the inputs
`"9,1"` and `"1,9"`. -/
theorem cli_selector_same_set_witness :
    select_channels_cli_step tenChannels "9,1" =
        some (([8, 0] : List Int).map
          (fun i => tenChannels.getD i.toNat defaultChannel)) ∧
    select_channels_cli_step tenChannels "1,9" =
        some (([0, 8] : List Int).map
          (fun i => tenChannels.getD i.toNat defaultChannel)) ∧
    (([8, 0] : List Int).map
        (fun i => tenChannels.getD i.toNat defaultChannel)).Perm
      (([0, 8] : List Int).map
        (fun i => tenChannels.getD i.toNat defaultChannel)) :=
  cli_selector_same_set tenChannels "9,1" "1,9" [8, 0] [0, 8]
    (by decide) (by decide) (by decide) (by decide)
    (by
      intro i
      simp only [List.mem_cons, List.not_mem_nil, or_false]
      exact or_comm)
